import Mathlib

/-!
Verification of the rbxmanager release-cache synchronization and deployment
workflow.  The Python sources under `rbxmanager/` are shallowly embedded:
pure logic becomes Lean functions, filesystem and process state become
explicit state values, and process-fatal `exit(1)` branches become explicit
outcome constructors.
-/

namespace Rbxmanager

/-- A release entry as stored in the cache: a `tag`, a display `name`, and
the asset filenames, exactly the fields built by `Database.fetch_releases`. -/
structure Release where
  tag : String
  name : String
  assets : List String
deriving Repr, DecidableEq

/-- The parsed cache contents in iteration order.  The persisted JSON object
is keyed by consecutive integers starting at 0, so iterating the Python dict
visits entries in list order. -/
abbrev Cache := List Release

/-- `Shared.release_validation_verification` (shared.py): iterate over the
cache entries in order and return the first whose `tag` field equals the
requested release string exactly; Python returns `False` (here `none`) when
no entry matches. -/
def release_validation_verification : Cache → String → Option Release
  | [], _ => none
  | r :: rest, release =>
    if r.tag = release then some r
    else release_validation_verification rest release

/-- `Update.get_old_release` (update.py): `versionFile` is the text of
`<install_dir>/RbxPI/Version.txt` when that file exists, `none` otherwise.
An absent file yields the sentinel `"unknown"`; otherwise `file.read(5)`
reads the first 5 characters and the result is displayed as `f"v{version}"`. -/
def get_old_release (versionFile : Option String) : String :=
  match versionFile with
  | none => "unknown"
  | some text => "v" ++ text.take 5

/-- Python `str.lower()` restricted to the ASCII range, which is all the
recognized environment aliases use. -/
def pyLower (s : String) : String := ⟨s.data.map Char.toLower⟩

/-- `ROJO_ENV` from install.py. -/
def ROJO_ENV : List String := ["rojo", "r"]

/-- `ROBLOX_STUDIO_ENV` from install.py. -/
def ROBLOX_STUDIO_ENV : List String := ["roblox studio", "robloxstudio", "rs"]

/-- `Install.select_environment` (install.py): lower-case the user input;
when it belongs to either alias set store it as the chosen environment,
otherwise log an error and leave `self.environment` unset (`none`).  The
method never terminates the process. -/
def select_environment (input : String) : Option String :=
  let choice := pyLower input
  if ROJO_ENV.contains choice || ROBLOX_STUDIO_ENV.contains choice then some choice
  else none

/-- The three ways `Install.install` can route. -/
inductive Route where
  | robloxStudio
  | rojo
  | fatalUnsupported
deriving Repr, DecidableEq

/-- `Install.install` (install.py): dispatch on the stored environment;
membership of `None` in a set of strings is `False` in Python, so an unset
environment falls through to the fatal `exit(1)` branch. -/
def install_dispatch (env : Option String) : Route :=
  match env with
  | some e =>
    if ROBLOX_STUDIO_ENV.contains e then Route.robloxStudio
    else if ROJO_ENV.contains e then Route.rojo
    else Route.fatalUnsupported
  | none => Route.fatalUnsupported

/-- C2: `release_validation_verification` returns the first entry (in
iteration order) whose tag is exactly, case-sensitively equal to the
requested tag, and returns not-found (`none`) whenever no entry's tag equals
it, including when the only difference is letter case (a case-mismatched tag
is simply an unequal string, covered by the first conjunct). -/
theorem c2_validation_first_exact_match (content : Cache) (release : String) :
    ((∀ r ∈ content, r.tag ≠ release) →
      release_validation_verification content release = none) ∧
    (∀ pre r post, content = pre ++ r :: post → r.tag = release →
      (∀ q ∈ pre, q.tag ≠ release) →
      release_validation_verification content release = some r) := by
  induction content with
  | nil =>
    refine ⟨fun _ => rfl, fun pre r post h _ _ => absurd h (by simp)⟩
  | cons a rest ih =>
    constructor
    · intro hnone
      have ha : a.tag ≠ release := hnone a (by simp)
      simp only [release_validation_verification, if_neg ha]
      exact ih.1 fun r hr => hnone r (by simp [hr])
    · intro pre r post hsplit htag hpre
      cases pre with
      | nil =>
        simp only [List.nil_append, List.cons.injEq] at hsplit
        obtain ⟨rfl, rfl⟩ := hsplit
        simp [release_validation_verification, htag]
      | cons p ps =>
        simp only [List.cons_append, List.cons.injEq] at hsplit
        obtain ⟨rfl, hrest⟩ := hsplit
        have hp : a.tag ≠ release := hpre a (by simp)
        simp only [release_validation_verification, if_neg hp]
        exact ih.2 ps r post hrest htag fun q hq => hpre q (by simp [hq])

/-- Concrete releases used by witnesses below. -/
def relA : Release := ⟨"v1.0.0", "First stable", ["RbxPI.rbxm"]⟩

/-- Second concrete release for witnesses. -/
def relB : Release := ⟨"v1.1.0", "Feature drop", ["RbxPI.rbxm", "notes.txt"]⟩

/-- A duplicate-tag entry placed after `relB`, to exercise first-match. -/
def relB2 : Release := ⟨"v1.1.0", "Duplicate tag", []⟩

/-- Witness for C2: on a concrete three-entry cache the first `v1.1.0`
entry wins over the later duplicate, and a case-mismatched query misses. -/
theorem c2_validation_first_exact_match_witness :
    release_validation_verification [relA, relB, relB2] "v1.1.0" = some relB ∧
    release_validation_verification [relA, relB, relB2] "V1.1.0" = none :=
  ⟨(c2_validation_first_exact_match [relA, relB, relB2] "v1.1.0").2
      [relA] relB [relB2] rfl rfl (by decide),
   (c2_validation_first_exact_match [relA, relB, relB2] "V1.1.0").1 (by decide)⟩

/-- C6 counterexample: a version marker file that is present but malformed
(empty text carries no version token) is not mapped to the sentinel
`"unknown"`; `get_old_release` reads its first 5 characters anyway and
reports `"v"`. -/
theorem c6_counterexample_malformed_marker :
    get_old_release (some "") = "v" ∧ get_old_release (some "") ≠ "unknown" := by
  constructor <;> decide

/-- C6 (amended): the current version is recovered by reading the first 5
characters of the marker file and displayed prefixed with `"v"`; only an
absent marker file yields the sentinel `"unknown"`.  A present but malformed
marker is not detected: its first 5 characters are used as-is.  In both
cases the function returns normally (it is total here, mirroring the Python
method returning instead of exiting), so the workflow continues to
target-release selection. -/
theorem c6_amended_version_marker (text : String) :
    get_old_release none = "unknown" ∧
    get_old_release (some text) = "v" ++ text.take 5 ∧
    get_old_release (some "1.2.3-beta") = "v1.2.3" := by
  refine ⟨rfl, rfl, by decide⟩

/-- C7: environment selection lower-cases the input and matches it against
the alias sets `{rojo, r}` and `{roblox studio, robloxstudio, rs}`; the
composition of selection and dispatch routes exactly by membership of the
lower-cased input (so mixed-case `"RS"` selects the Roblox Studio path);
unrecognized input leaves the environment unset (`none`), selection itself
never aborts, and the unsupported-environment fatal error arises only at the
`install` dispatch step. -/
theorem c7_environment_selection (input : String) :
    (install_dispatch (select_environment input) =
      (if pyLower input ∈ ROBLOX_STUDIO_ENV then Route.robloxStudio
       else if pyLower input ∈ ROJO_ENV then Route.rojo
       else Route.fatalUnsupported)) ∧
    (pyLower input ∉ ROJO_ENV → pyLower input ∉ ROBLOX_STUDIO_ENV →
      select_environment input = none ∧
        install_dispatch (select_environment input) = Route.fatalUnsupported) ∧
    install_dispatch (select_environment "RS") = Route.robloxStudio := by
  refine ⟨?_, ?_, by decide⟩
  · by_cases h1 : pyLower input ∈ ROJO_ENV <;>
      by_cases h2 : pyLower input ∈ ROBLOX_STUDIO_ENV <;>
        simp [select_environment, install_dispatch, h1, h2]
  · intro h1 h2
    constructor
    · simp [select_environment, h1, h2]
    · simp [select_environment, install_dispatch, h1, h2]

/-- Witness for C7: the unrecognized input `"banana"` leaves the environment
unset and fails only at dispatch, while `"RS"` routes to Roblox Studio. -/
theorem c7_environment_selection_witness :
    (select_environment "banana" = none ∧
      install_dispatch (select_environment "banana") = Route.fatalUnsupported) ∧
    install_dispatch (select_environment "RS") = Route.robloxStudio :=
  ⟨(c7_environment_selection "banana").2.1 (by decide) (by decide),
   (c7_environment_selection "RS").2.2⟩

/-- The persisted cache file (`cache/data.json`): `none` when the file does
not exist, otherwise the stored release collection together with its age in
whole days, derived from the file's modification time (a fresh write has age
0 days). -/
abbrev DbState := Option (Cache × Nat)

/-- `Database.exist` (database.py): physical existence of the cache file. -/
def Database.exist (st : DbState) : Bool := st.isSome

/-- `Database.create` (database.py): initialize an empty JSON object with a
fresh modification time when the file is absent; never overwrite an existing
file. -/
def Database.create (st : DbState) : DbState :=
  match st with
  | none => some ([], 0)
  | some x => some x

/-- `Database.get` (database.py): a missing file reads as the empty
collection (the `FileNotFoundError` branch); a corrupted file also reads as
empty, which this value-level state represents by storing `[]`. -/
def Database.get (st : DbState) : Cache :=
  match st with
  | none => []
  | some (c, _) => c

/-- `Database.write` (database.py): replace the stored contents wholesale;
the file's modification time becomes the current time, so its age is 0. -/
def Database.write (data : Cache) : DbState := some (data, 0)

/-- `Database.get_days_since_modification` (database.py): `None` when the
file does not exist, otherwise the whole-day difference between now and the
file's modification time. -/
def Database.get_days_since_modification (st : DbState) : Option Nat :=
  st.map (fun x => x.2)

/-- One element of the release-listing JSON array. `tag_name` and `name` are
read with `.get(..., "undefined")`, so they may be absent without harm; the
nested `assets` array is accessed by subscript (`data[index]["assets"]`), so
its absence raises; each asset's `name` is again read with a default. -/
structure RawRelease where
  tagName : Option String
  rawName : Option String
  assets : Option (List (Option String))
deriving Repr, DecidableEq

/-- The payload of the release-listing response: either a JSON array of
release objects, or something of an unexpected shape (not an array, element
not an object, ...) whose processing raises an exception that the generic
`except Exception` handler turns into `exit(1)`. -/
inductive Payload where
  | wellFormed (elems : List RawRelease)
  | malformed
deriving Repr, DecidableEq

/-- The transport outcome of `requests.get`: a `RequestException`, or a
response payload. -/
abbrev FetchResponse := Except Unit Payload

/-- Outcome of `Database.fetch_releases`: `fatal` is the `exit(1)` path,
carrying the persisted state the process leaves behind; `ok` is a normal
return with the new persisted state. -/
inductive FetchResult where
  | fatal (st : DbState)
  | ok (st : DbState)
deriving Repr, DecidableEq

/-- The loop body of `Database.fetch_releases`: build the release entry for
one raw element; `none` when touching the missing `assets` key raises. -/
def parseRawRelease (r : RawRelease) : Option Release :=
  match r.assets with
  | none => none
  | some as =>
    some ⟨r.tagName.getD "undefined", r.rawName.getD "undefined",
      as.map (fun a => a.getD "undefined")⟩

/-- The whole parsing loop of `Database.fetch_releases`: every element must
parse, and the first element whose `assets` key is missing aborts the loop
with an exception. -/
def parseAll : List RawRelease → Option (List Release)
  | [] => some []
  | r :: rest =>
    match parseRawRelease r, parseAll rest with
    | some a, some as => some (a :: as)
    | _, _ => none

/-- `Database.fetch_releases` (database.py): a transport failure or any
exception while parsing the payload logs and calls `exit(1)` before any
write; only a fully parsed release list reaches `Database.write`. -/
def Database.fetch_releases (st : DbState) (resp : FetchResponse) : FetchResult :=
  match resp with
  | .error _ => .fatal st
  | .ok .malformed => .fatal st
  | .ok (.wellFormed elems) =>
    match parseAll elems with
    | none => .fatal st
    | some releases => .ok (Database.write releases)

/-- `Database.show` (database.py), renamed since `show` is a Lean keyword:
re-read the stored releases and the file age; an empty collection returns
early without printing, otherwise the table is printed and the staleness
warning is printed exactly when the age is at least 3 days.  Returns the
pair (table displayed, warning shown). -/
def Database.showTable (st : DbState) : Bool × Bool :=
  match st with
  | none => (false, false)
  | some (c, age) => if c = [] then (false, false) else (true, decide (3 ≤ age))

/-- Outcome of `Shared.get_release`.  `typeError` marks the `TypeError` that
the Python comparison `None >= 7` would raise; `fatalFetch` is the `exit(1)`
inside `Database.fetch_releases`; `ok` carries the returned content, the
final persisted state, whether a remote fetch ran, and whether the table and
the staleness warning were shown. -/
inductive GetReleaseResult where
  | typeError
  | fatalFetch (st : DbState)
  | ok (content : Cache) (st : DbState) (fetched displayed warned : Bool)
deriving Repr, DecidableEq

/-- Whether a remote fetch was triggered (an aborted fetch still counts as
triggered). -/
def GetReleaseResult.fetchTriggered : GetReleaseResult → Bool
  | .typeError => false
  | .fatalFetch _ => true
  | .ok _ _ fetched _ _ => fetched

/-- Whether the staleness warning was printed. -/
def GetReleaseResult.warned : GetReleaseResult → Bool
  | .ok _ _ _ _ warned => warned
  | _ => false

/-- `Shared.get_release` (shared.py): ensure the database file exists
(creating it when missing), read the content and its age, refetch when the
content is empty or the age is at least 7 days, then display the content via
`Database.show` and return it. -/
def Shared.get_release (st : DbState) (resp : FetchResponse) : GetReleaseResult :=
  let st1 := if Database.exist st then st else Database.create st
  let content := Database.get st1
  match Database.get_days_since_modification st1 with
  | none => .typeError
  | some days =>
    if content = [] ∨ 7 ≤ days then
      match Database.fetch_releases st1 resp with
      | .fatal stf => .fatalFetch stf
      | .ok st2 =>
        let content2 := Database.get st2
        let dw := Database.showTable st2
        .ok content2 st2 true dw.1 dw.2
    else
      let dw := Database.showTable st1
      .ok content st1 false dw.1 dw.2

/-- A concrete raw API element that parses to `relA`, for witnesses. -/
def rawA : RawRelease := ⟨some "v1.0.0", some "First stable", some [some "RbxPI.rbxm"]⟩

/-- C1 counterexample: a non-empty cache aged exactly 7 days triggers the
refresh, but the staleness warning is NOT shown — `Database.show` recomputes
the age from the freshly rewritten file (0 days), so no warning accompanies
a refresh, contradicting "a warning is shown exactly when the age is at
least 3 days" at age 7. -/
theorem c1_counterexample_no_warning_at_age_seven :
    (Shared.get_release (some ([relA], 7)) (.ok (.wellFormed [rawA]))).fetchTriggered = true ∧
    (Shared.get_release (some ([relA], 7)) (.ok (.wellFormed [rawA]))).warned = false ∧
    3 ≤ 7 := by decide

/-- Unfolding equation for `Shared.get_release` on a present cache file. -/
theorem get_release_eq_some (c : Cache) (age : Nat) (resp : FetchResponse) :
    Shared.get_release (some (c, age)) resp =
      (if c = [] ∨ 7 ≤ age then
        match Database.fetch_releases (some (c, age)) resp with
        | .fatal stf => .fatalFetch stf
        | .ok st2 =>
          .ok (Database.get st2) st2 true (Database.showTable st2).1 (Database.showTable st2).2
      else
        .ok c (some (c, age)) false (Database.showTable (some (c, age))).1
          (Database.showTable (some (c, age))).2) := rfl

/-- Unfolding equation for `Shared.get_release` on an absent cache file:
`Database.create` first materializes the empty cache with age 0. -/
theorem get_release_eq_none (resp : FetchResponse) :
    Shared.get_release none resp =
      match Database.fetch_releases (some ([], 0)) resp with
      | .fatal stf => .fatalFetch stf
      | .ok st2 =>
        .ok (Database.get st2) st2 true (Database.showTable st2).1 (Database.showTable st2).2 := rfl

/-- A successful `fetch_releases` always returns a freshly written state. -/
theorem fetch_ok_shape (st : DbState) (resp : FetchResponse) (st2 : DbState)
    (hf : Database.fetch_releases st resp = FetchResult.ok st2) :
    ∃ rs, st2 = Database.write rs := by
  rcases resp with _ | p
  · simp [Database.fetch_releases] at hf
  · cases p with
    | malformed => simp [Database.fetch_releases] at hf
    | wellFormed elems =>
      simp only [Database.fetch_releases] at hf
      cases hm : parseAll elems with
      | none => simp [hm] at hf
      | some releases =>
        simp only [hm] at hf
        cases hf
        exact ⟨releases, rfl⟩

/-- A freshly written cache never triggers the staleness warning: its age
is 0 days. -/
theorem showTable_write_warned (rs : Cache) :
    (Database.showTable (Database.write rs)).2 = false := by
  cases rs <;> simp [Database.write, Database.showTable]

/-- C1 (amended): for a non-empty cached collection, a remote refresh is
triggered exactly when the age is at least 7 days, and the staleness warning
is shown exactly when the age is at least 3 days AND below 7 (when a refresh
runs, the warning check sees the just-rewritten file whose age is 0, so no
warning accompanies a refresh); below 3 days neither happens; when the
cached collection is empty — or the file is absent — a remote fetch is
always triggered regardless of age. -/
theorem c1_amended_freshness_policy (c : Cache) (age : Nat) (resp : FetchResponse) :
    (c ≠ [] →
      (Shared.get_release (some (c, age)) resp).fetchTriggered = decide (7 ≤ age) ∧
      (Shared.get_release (some (c, age)) resp).warned = decide (3 ≤ age ∧ age < 7)) ∧
    (Shared.get_release (some ([], age)) resp).fetchTriggered = true ∧
    (Shared.get_release none resp).fetchTriggered = true := by
  refine ⟨?_, ?_, ?_⟩
  · intro hc
    rw [get_release_eq_some]
    by_cases h7 : 7 ≤ age
    · rw [if_pos (Or.inr h7)]
      have h3 : decide (3 ≤ age ∧ age < 7) = false := by
        simp only [decide_eq_false_iff_not]
        omega
      cases hf : Database.fetch_releases (some (c, age)) resp with
      | fatal stf =>
        exact ⟨by simp [GetReleaseResult.fetchTriggered, h7], by
          simp [GetReleaseResult.warned, h3]⟩
      | ok st2 =>
        obtain ⟨rs, rfl⟩ := fetch_ok_shape _ _ _ hf
        exact ⟨by simp [GetReleaseResult.fetchTriggered, h7], by
          simp [GetReleaseResult.warned, h3, showTable_write_warned]⟩
    · rw [if_neg (not_or.mpr ⟨hc, h7⟩)]
      have hshow : Database.showTable (some (c, age)) = (true, decide (3 ≤ age)) := by
        simp [Database.showTable, hc]
      rw [hshow]
      constructor
      · simp [GetReleaseResult.fetchTriggered, h7]
      · simp only [GetReleaseResult.warned]
        rw [decide_eq_decide]
        omega
  · rw [get_release_eq_some, if_pos (Or.inl rfl)]
    cases Database.fetch_releases (some ([], age)) resp <;>
      simp [GetReleaseResult.fetchTriggered]
  · rw [get_release_eq_none]
    cases Database.fetch_releases (some ([], 0)) resp <;>
      simp [GetReleaseResult.fetchTriggered]

/-- Witness for C1 (amended): a concrete non-empty cache aged 4 days does
not refresh but does warn. -/
theorem c1_amended_freshness_policy_witness :
    (Shared.get_release (some ([relA], 4)) (.ok (.wellFormed [rawA]))).fetchTriggered
        = decide (7 ≤ 4) ∧
    (Shared.get_release (some ([relA], 4)) (.ok (.wellFormed [rawA]))).warned
        = decide (3 ≤ 4 ∧ 4 < 7) :=
  (c1_amended_freshness_policy [relA] 4 (.ok (.wellFormed [rawA]))).1 (by decide)

/-- C9: the staleness comparison in `Shared.get_release` is never evaluated
against the absent-file `None`: the existence check and `Database.create`
call guarantee the cache file exists before the age query, so
`get_days_since_modification` returns an integer there and the `TypeError`
outcome is unreachable for every initial state and every response. -/
theorem c9_age_comparison_never_absent (st : DbState) (resp : FetchResponse) :
    Shared.get_release st resp ≠ GetReleaseResult.typeError := by
  cases st with
  | none =>
    rw [get_release_eq_none]
    cases Database.fetch_releases (some ([], 0)) resp <;> simp
  | some x =>
    obtain ⟨c, age⟩ := x
    rw [get_release_eq_some]
    by_cases hcond : c = [] ∨ 7 ≤ age
    · rw [if_pos hcond]
      cases Database.fetch_releases (some (c, age)) resp <;> simp
    · rw [if_neg hcond]
      simp

/-- Decides whether the response makes `Database.fetch_releases` fail:
transport error, non-array payload, or an element lacking its `assets`
array. -/
def respFails (resp : FetchResponse) : Bool :=
  match resp with
  | .error _ => true
  | .ok .malformed => true
  | .ok (.wellFormed elems) => (parseAll elems).isNone

/-- C3: whenever `Database.fetch_releases` meets a transport-level HTTP
failure or a payload of unexpected shape, the run terminates fatally with
the persisted cache exactly as it was before the call; moreover every fatal
outcome preserves the cache, and only a fully parsed response produces a
write (which then has a fresh modification time). -/
theorem c3_fetch_failure_leaves_cache_unchanged (st : DbState) (resp : FetchResponse) :
    (respFails resp = true → Database.fetch_releases st resp = FetchResult.fatal st) ∧
    (∀ st', Database.fetch_releases st resp = FetchResult.fatal st' → st' = st) ∧
    (respFails resp = false →
      ∃ releases, Database.fetch_releases st resp = FetchResult.ok (some (releases, 0))) := by
  rcases resp with _ | p
  · exact ⟨fun _ => rfl, fun st' h => by cases h; rfl, fun h => by simp [respFails] at h⟩
  · cases p with
    | malformed =>
      exact ⟨fun _ => rfl, fun st' h => by cases h; rfl, fun h => by simp [respFails] at h⟩
    | wellFormed elems =>
      refine ⟨?_, ?_, ?_⟩
      · intro h
        simp only [respFails, Option.isNone_iff_eq_none] at h
        simp [Database.fetch_releases, h]
      · intro st' h
        simp only [Database.fetch_releases] at h
        cases hm : parseAll elems with
        | none => simp only [hm] at h; cases h; rfl
        | some releases => simp [hm] at h
      · intro h
        simp only [respFails] at h
        cases hm : parseAll elems with
        | none => rw [hm] at h; simp at h
        | some releases =>
          exact ⟨releases, by simp [Database.fetch_releases, hm, Database.write]⟩

/-- Witness for C3: a malformed payload on a concrete 2-day-old cache exits
fatally and leaves that cache in place. -/
theorem c3_fetch_failure_leaves_cache_unchanged_witness :
    Database.fetch_releases (some ([relA], 2)) (.ok .malformed)
      = FetchResult.fatal (some ([relA], 2)) :=
  (c3_fetch_failure_leaves_cache_unchanged (some ([relA], 2)) (.ok .malformed)).1 (by decide)

/-- The contents of the chosen install directory: an association list from
entry name to an abstract content identifier.  Only the entries the
workflows touch matter; their subtrees are collapsed into the identifier. -/
abbrev FS := List (String × Nat)

/-- Name lookup in the install directory. -/
def fsLookup : FS → String → Option Nat
  | [], _ => none
  | (k, v) :: rest, key => if k = key then some v else fsLookup rest key

/-- `shutil.rmtree`-style removal of one entry (all its occurrences). -/
def fsRemove (fs : FS) (key : String) : FS := fs.filter (fun e => e.1 != key)

/-- Placing an entry, replacing what was there. -/
def fsSet (fs : FS) (key : String) (v : Nat) : FS := (key, v) :: fsRemove fs key

theorem fsLookup_remove_same (fs : FS) (k : String) : fsLookup (fsRemove fs k) k = none := by
  induction fs with
  | nil => rfl
  | cons e rest ih =>
    obtain ⟨ek, ev⟩ := e
    by_cases h : ek = k
    · subst h
      simpa [fsRemove, List.filter_cons] using ih
    · simpa [fsRemove, List.filter_cons, h, fsLookup] using ih

theorem fsLookup_remove_other (fs : FS) (k k' : String) (h : k' ≠ k) :
    fsLookup (fsRemove fs k) k' = fsLookup fs k' := by
  induction fs with
  | nil => rfl
  | cons e rest ih =>
    obtain ⟨ek, ev⟩ := e
    by_cases hk : ek = k
    · subst hk
      have hne : ¬(ek = k') := fun hh => h hh.symm
      simpa [fsRemove, List.filter_cons, fsLookup, hne] using ih
    · by_cases he : ek = k'
      · simp [fsRemove, List.filter_cons, hk, fsLookup, he, h]
      · simpa [fsRemove, List.filter_cons, hk, fsLookup, he] using ih

theorem fsLookup_set_same (fs : FS) (k : String) (v : Nat) :
    fsLookup (fsSet fs k v) k = some v := by
  simp [fsSet, fsLookup]

theorem fsLookup_set_other (fs : FS) (k k' : String) (v : Nat) (h : k' ≠ k) :
    fsLookup (fsSet fs k v) k' = fsLookup fs k' := by
  simp only [fsSet, fsLookup]
  rw [if_neg (fun hh => h hh.symm)]
  exact fsLookup_remove_other fs k k' h

/-- A downloaded source archive: GitHub tag archives contain one top-level
folder (named after the repository and tag) holding a `src/RbxPI` subtree,
whose content the deployment copies. -/
structure Archive where
  topFolder : String
  srcContent : Nat
deriving Repr, DecidableEq

/-- `Shared.extract_file` (shared.py): extract the zip beneath the
destination directory and return the top-level folder name taken from the
first entry of the archive listing. -/
def Shared.extract_file (fs : FS) (ar : Archive) : FS × String :=
  (fsSet fs ar.topFolder ar.srcContent, ar.topFolder)

/-- Filesystem-visible actions of a deployment, in execution order. -/
inductive Ev where
  | deleteOld
  | extractArchive
  | copyTree
  | cleanStaging
deriving Repr, DecidableEq

/-- Outcome of a deployment: `skipped` when the confirmation prompt was
declined (the Python method simply returns), `fatal` for the `exit(1)`
paths, `ok` for a completed deployment; both carry the directory state left
behind and the actions performed. -/
inductive DeployOutcome where
  | skipped (fs : FS)
  | fatal (fs : FS) (events : List Ev)
  | ok (fs : FS) (events : List Ev)
deriving Repr, DecidableEq

/-- `Install.install_rojo` (install.py), from the confirmation prompt on:
on acceptance (`lower() in ["y", ""]`) download the tag archive (a failed
download exits), extract it into the install directory, abort with
`exit(1)` if `<install_dir>/RbxPI` already exists — before any copy — and
otherwise copy the extracted `src/RbxPI` to `<install_dir>/RbxPI` and remove
the staging folder. -/
def Install.install_rojo (fs : FS) (ar : Archive) (confirmInput : String)
    (downloadOk : Bool) : DeployOutcome :=
  if pyLower confirmInput ∈ (["y", ""] : List String) then
    if downloadOk then
      let fs1 := (Shared.extract_file fs ar).1
      if (fsLookup fs1 "RbxPI").isSome then
        .fatal fs1 [.extractArchive]
      else
        let fs2 := fsSet fs1 "RbxPI" ar.srcContent
        let fs3 := fsRemove fs2 ar.topFolder
        .ok fs3 [.extractArchive, .copyTree, .cleanStaging]
    else .fatal fs []
  else .skipped fs

/-- The replace step of `Update.__init__` (update.py), from the confirmation
prompt on: on acceptance download the new tag archive (a failed download
exits), delete the existing `RbxPI` directory (a missing one makes
`shutil.rmtree` raise into the `except` handler, which exits), extract the
archive, abort with `exit(1)` if the destination exists again, otherwise
copy the extracted `src/RbxPI` into place and remove the staging folder. -/
def Update.replace (fs : FS) (ar : Archive) (confirmInput : String)
    (downloadOk : Bool) : DeployOutcome :=
  if pyLower confirmInput ∈ (["y", ""] : List String) then
    if downloadOk then
      match fsLookup fs "RbxPI" with
      | none => .fatal fs []
      | some _ =>
        let fs1 := fsRemove fs "RbxPI"
        let fs2 := (Shared.extract_file fs1 ar).1
        if (fsLookup fs2 "RbxPI").isSome then
          .fatal fs2 [.deleteOld, .extractArchive]
        else
          let fs3 := fsSet fs2 "RbxPI" ar.srcContent
          let fs4 := fsRemove fs3 ar.topFolder
          .ok fs4 [.deleteOld, .extractArchive, .copyTree, .cleanStaging]
    else .fatal fs []
  else .skipped fs

/-- C4: in the Rojo install path, whenever `<install_dir>/RbxPI` already
exists at deploy time, the installation aborts before any copy into that
destination (the action trace ends at extraction and contains no copy), and
the pre-existing `RbxPI` entry is left untouched.  The archive's top-level
folder is the GitHub `repo-tag` folder, distinct from `RbxPI`. -/
theorem c4_existing_rbxpi_aborts_before_copy (fs : FS) (ar : Archive)
    (confirmInput : String) (v : Nat)
    (hconf : pyLower confirmInput ∈ (["y", ""] : List String))
    (hpre : fsLookup fs "RbxPI" = some v)
    (htop : ar.topFolder ≠ "RbxPI") :
    Install.install_rojo fs ar confirmInput true =
      DeployOutcome.fatal (fsSet fs ar.topFolder ar.srcContent) [Ev.extractArchive] ∧
    fsLookup (fsSet fs ar.topFolder ar.srcContent) "RbxPI" = some v ∧
    Ev.copyTree ∉ [Ev.extractArchive] := by
  have hlook : fsLookup (fsSet fs ar.topFolder ar.srcContent) "RbxPI" = some v := by
    rw [fsLookup_set_other fs ar.topFolder "RbxPI" ar.srcContent (fun h => htop h.symm)]
    exact hpre
  refine ⟨?_, hlook, by simp⟩
  unfold Install.install_rojo
  rw [if_pos hconf, if_pos rfl]
  simp only [Shared.extract_file]
  rw [if_pos (by rw [hlook]; rfl)]

/-- Concrete install directory contents for the witnesses: an existing
`RbxPI` deployment plus an unrelated project file. -/
def fs0 : FS := [("RbxPI", 1), ("default.project.json", 2)]

/-- Concrete archive for the witnesses. -/
def ar0 : Archive := ⟨"rbxpi-core-1.1.0", 42⟩

/-- Witness for C4: with `RbxPI` already present in a concrete directory,
a confirmed Rojo install aborts fatally right after extraction and the
pre-existing entry is intact. -/
theorem c4_existing_rbxpi_aborts_before_copy_witness :
    Install.install_rojo fs0 ar0 "Y" true =
      DeployOutcome.fatal (fsSet fs0 ar0.topFolder ar0.srcContent) [Ev.extractArchive] ∧
    fsLookup (fsSet fs0 ar0.topFolder ar0.srcContent) "RbxPI" = some 1 ∧
    Ev.copyTree ∉ [Ev.extractArchive] :=
  c4_existing_rbxpi_aborts_before_copy fs0 ar0 "Y" 1 (by decide) (by decide) (by decide)

/-- C5: in the update Replace step, after confirmation and a successful
download, the existing `RbxPI` entry is deleted strictly before the archive
is extracted (the action trace starts `deleteOld, extractArchive`); if the
destination exists again after extraction — which in this model happens
exactly when the archive's top folder is itself named `RbxPI` — the run
aborts fatally; otherwise the extracted `src/RbxPI` content becomes the new
`RbxPI` entry and the staging folder is removed. -/
theorem c5_replace_deletes_then_deploys (fs : FS) (ar : Archive)
    (confirmInput : String) (v : Nat)
    (hconf : pyLower confirmInput ∈ (["y", ""] : List String))
    (hpre : fsLookup fs "RbxPI" = some v) :
    (ar.topFolder = "RbxPI" →
      Update.replace fs ar confirmInput true =
        DeployOutcome.fatal (fsSet (fsRemove fs "RbxPI") ar.topFolder ar.srcContent)
          [Ev.deleteOld, Ev.extractArchive]) ∧
    (ar.topFolder ≠ "RbxPI" →
      Update.replace fs ar confirmInput true =
        DeployOutcome.ok
          (fsRemove (fsSet (fsSet (fsRemove fs "RbxPI") ar.topFolder ar.srcContent)
            "RbxPI" ar.srcContent) ar.topFolder)
          [Ev.deleteOld, Ev.extractArchive, Ev.copyTree, Ev.cleanStaging] ∧
      fsLookup
          (fsRemove (fsSet (fsSet (fsRemove fs "RbxPI") ar.topFolder ar.srcContent)
            "RbxPI" ar.srcContent) ar.topFolder) "RbxPI" = some ar.srcContent ∧
      fsLookup
          (fsRemove (fsSet (fsSet (fsRemove fs "RbxPI") ar.topFolder ar.srcContent)
            "RbxPI" ar.srcContent) ar.topFolder) ar.topFolder = none) := by
  constructor
  · intro htop
    unfold Update.replace
    rw [if_pos hconf, if_pos rfl, hpre]
    simp only [Shared.extract_file]
    rw [if_pos (by rw [htop, fsLookup_set_same]; rfl)]
  · intro htop
    unfold Update.replace
    rw [if_pos hconf, if_pos rfl, hpre]
    simp only [Shared.extract_file]
    have hgone : fsLookup (fsSet (fsRemove fs "RbxPI") ar.topFolder ar.srcContent) "RbxPI"
        = none := by
      rw [fsLookup_set_other _ _ _ _ (fun h => htop h.symm), fsLookup_remove_same]
    rw [if_neg (by rw [hgone]; simp)]
    refine ⟨rfl, ?_, fsLookup_remove_same _ _⟩
    rw [fsLookup_remove_other _ _ _ (fun h => htop h.symm), fsLookup_set_same]

/-- Witness for C5: a confirmed update on a concrete directory deletes the
old `RbxPI`, extracts, copies the new content into place and removes the
staging folder, in that order. -/
theorem c5_replace_deletes_then_deploys_witness :
    Update.replace fs0 ar0 "" true =
      DeployOutcome.ok
        (fsRemove (fsSet (fsSet (fsRemove fs0 "RbxPI") ar0.topFolder ar0.srcContent)
          "RbxPI" ar0.srcContent) ar0.topFolder)
        [Ev.deleteOld, Ev.extractArchive, Ev.copyTree, Ev.cleanStaging] ∧
    fsLookup
        (fsRemove (fsSet (fsSet (fsRemove fs0 "RbxPI") ar0.topFolder ar0.srcContent)
          "RbxPI" ar0.srcContent) ar0.topFolder) "RbxPI" = some ar0.srcContent ∧
    fsLookup
        (fsRemove (fsSet (fsSet (fsRemove fs0 "RbxPI") ar0.topFolder ar0.srcContent)
          "RbxPI" ar0.srcContent) ar0.topFolder) ar0.topFolder = none :=
  (c5_replace_deletes_then_deploys fs0 ar0 "" 1 (by decide) (by decide)).2 (by decide)

/-- Python `url.split("/")` on a character list: split at every slash and
keep empty segments, as `str.split` with an explicit separator does. -/
def splitSlash : List Char → List (List Char)
  | [] => [[]]
  | c :: rest =>
    if c = '/' then [] :: splitSlash rest
    else
      match splitSlash rest with
      | s :: ss => (c :: s) :: ss
      | [] => [[c]]

theorem splitSlash_ne_nil (l : List Char) : splitSlash l ≠ [] := by
  cases l with
  | nil => simp [splitSlash]
  | cons c rest =>
    by_cases h : c = '/'
    · simp [splitSlash, h]
    · simp only [splitSlash, if_neg h]
      cases hs : splitSlash rest <;> simp

/-- `url.split("/")[-1]`: the last segment of the split. -/
def lastSegment (url : List Char) : List Char := ((splitSlash url).getLast?).getD []

/-- Claim-side reading of the default filename: the substring of the URL
after its last `/` (the whole URL when it has no slash), defined
independently of `split`. -/
def afterLastSlash (url : List Char) : List Char :=
  (url.reverse.takeWhile (fun c => c != '/')).reverse

theorem takeWhile_append_all {p : Char → Bool} (xs ys : List Char)
    (h : ∀ x ∈ xs, p x = true) :
    (xs ++ ys).takeWhile p = xs ++ ys.takeWhile p := by
  induction xs with
  | nil => simp
  | cons a l ih =>
    simp [List.takeWhile_cons, h a (by simp), ih fun x hx => h x (by simp [hx])]

theorem takeWhile_all {p : Char → Bool} (xs : List Char) (h : ∀ x ∈ xs, p x = true) :
    xs.takeWhile p = xs := by
  induction xs with
  | nil => rfl
  | cons a l ih =>
    simp [List.takeWhile_cons, h a (by simp), ih fun x hx => h x (by simp [hx])]

theorem takeWhile_append_stop {p : Char → Bool} (xs ys : List Char) (x : Char)
    (hx : x ∈ xs) (hpx : p x = false) :
    (xs ++ ys).takeWhile p = xs.takeWhile p := by
  induction xs with
  | nil => simp at hx
  | cons a l ih =>
    by_cases hpa : p a = true
    · rcases List.mem_cons.mp hx with rfl | hxl
      · rw [hpa] at hpx
        cases hpx
      · simp [List.takeWhile_cons, hpa, ih hxl]
    · have hfa : p a = false := by
        cases hq : p a
        · rfl
        · exact absurd hq hpa
      simp [List.takeWhile_cons, hfa]

theorem splitSlash_no_slash (l : List Char) (h : '/' ∉ l) : splitSlash l = [l] := by
  induction l with
  | nil => rfl
  | cons c rest ih =>
    have hc : ¬(c = '/') := fun hh => h (by simp [hh])
    have hr : '/' ∉ rest := fun hh => h (by simp [hh])
    simp only [splitSlash, if_neg hc, ih hr]

theorem splitSlash_singleton (l s : List Char) (h : splitSlash l = [s]) :
    s = l ∧ '/' ∉ l := by
  induction l generalizing s with
  | nil =>
    have h' : ([[]] : List (List Char)) = [s] := h
    injection h' with h1 _
    exact ⟨h1.symm, by simp⟩
  | cons c rest ih =>
    by_cases hc : c = '/'
    · simp only [splitSlash, if_pos hc, List.cons.injEq] at h
      exact absurd h.2 (splitSlash_ne_nil rest)
    · simp only [splitSlash, if_neg hc] at h
      cases hs : splitSlash rest with
      | nil => exact absurd hs (splitSlash_ne_nil rest)
      | cons t ts =>
        rw [hs] at h
        simp only [List.cons.injEq, and_true] at h
        obtain ⟨hst, hts⟩ := h
        obtain ⟨rfl, hnm⟩ := ih t (by rw [hs, hts])
        refine ⟨hst.symm, ?_⟩
        intro hmem
        rcases List.mem_cons.mp hmem with hh | hh
        · exact hc hh.symm
        · exact hnm hh

theorem afterLastSlash_cons_mem (c : Char) (rest : List Char) (hm : '/' ∈ rest) :
    afterLastSlash (c :: rest) = afterLastSlash rest := by
  unfold afterLastSlash
  simp only [List.reverse_cons]
  rw [takeWhile_append_stop _ _ '/' (by simpa using hm) (by simp)]

theorem afterLastSlash_no_slash (l : List Char) (hm : '/' ∉ l) :
    afterLastSlash l = l := by
  unfold afterLastSlash
  rw [takeWhile_all _ fun x hx => ?_, List.reverse_reverse]
  have hxm : x ∈ l := by simpa using hx
  have : ¬(x = '/') := fun hh => hm (hh ▸ hxm)
  simpa using this

theorem afterLastSlash_slash_nomem (rest : List Char) (hm : '/' ∉ rest) :
    afterLastSlash ('/' :: rest) = rest := by
  unfold afterLastSlash
  simp only [List.reverse_cons]
  rw [takeWhile_append_all _ _ fun x hx => ?_]
  · simp [List.takeWhile_cons]
  · have hxm : x ∈ rest := by simpa using hx
    have : ¬(x = '/') := fun hh => hm (hh ▸ hxm)
    simpa using this

theorem afterLastSlash_cons_nomem (c : Char) (rest : List Char) (hc : ¬(c = '/'))
    (hm : '/' ∉ rest) :
    afterLastSlash (c :: rest) = c :: rest := by
  unfold afterLastSlash
  simp only [List.reverse_cons]
  rw [takeWhile_append_all _ _ fun x hx => ?_]
  · simp [List.takeWhile_cons, hc]
  · have hxm : x ∈ rest := by simpa using hx
    have : ¬(x = '/') := fun hh => hm (hh ▸ hxm)
    simpa using this

/-- The `split`-based default filename of the source equals the substring
after the last slash. -/
theorem lastSegment_eq_afterLastSlash (url : List Char) :
    lastSegment url = afterLastSlash url := by
  induction url with
  | nil => rfl
  | cons c rest ih =>
    by_cases hm : '/' ∈ rest
    · rw [afterLastSlash_cons_mem c rest hm, ← ih]
      by_cases hc : c = '/'
      · subst hc
        unfold lastSegment
        simp only [splitSlash, if_pos rfl]
        cases hs : splitSlash rest with
        | nil => exact absurd hs (splitSlash_ne_nil rest)
        | cons t ts => simp [List.getLast?_cons_cons]
      · unfold lastSegment
        simp only [splitSlash, if_neg hc]
        cases hs : splitSlash rest with
        | nil => exact absurd hs (splitSlash_ne_nil rest)
        | cons t ts =>
          cases ts with
          | nil =>
            obtain ⟨rfl, hnm⟩ := splitSlash_singleton rest t hs
            exact absurd hm hnm
          | cons t2 ts2 => simp [List.getLast?_cons_cons]
    · have hrest : splitSlash rest = [rest] := splitSlash_no_slash rest hm
      by_cases hc : c = '/'
      · subst hc
        rw [afterLastSlash_slash_nomem rest hm]
        unfold lastSegment
        simp only [splitSlash, if_pos rfl, hrest]
        simp [List.getLast?_cons_cons]
      · rw [afterLastSlash_cons_nomem c rest hc hm]
        unfold lastSegment
        simp only [splitSlash, if_neg hc, hrest]
        simp

/-- The downloads directory pick of `Shared.download_file` (shared.py):
the localized `Téléchargements` folder under the user's home when it
exists, else the `Downloads` folder. -/
def downloads_dir (telechargementsExists : Bool) : List Char :=
  if telechargementsExists then "Téléchargements".data else "Downloads".data

/-- The destination resolution of `Shared.download_file` (shared.py): the
directory under the user's home the file is saved in, and the filename used.
`if not filename` is also true for an explicit empty string, hence the
emptiness test on the `some` branch.  The streaming itself has no bearing on
the destination and is not modelled. -/
def Shared.download_file (url : List Char) (filename : Option (List Char))
    (telechargementsExists : Bool) : List Char × List Char :=
  let fname :=
    match filename with
    | none => lastSegment url
    | some f => if f = [] then lastSegment url else f
  (downloads_dir telechargementsExists, fname)

/-- C10: `Shared.download_file` recognizes exactly one localized downloads
folder: it writes under the home `Téléchargements` directory precisely when
that directory exists, and otherwise under the home `Downloads` directory;
when no filename argument is given, the saved filename is the substring of
the URL after its last `/`. -/
theorem c10_download_destination (url : List Char) (telEx : Bool)
    (fnameOpt : Option (List Char)) :
    (telEx = true →
      (Shared.download_file url fnameOpt telEx).1 = "Téléchargements".data) ∧
    (telEx = false →
      (Shared.download_file url fnameOpt telEx).1 = "Downloads".data) ∧
    (Shared.download_file url none telEx).2 = afterLastSlash url := by
  refine ⟨fun h => by simp [Shared.download_file, downloads_dir, h],
    fun h => by simp [Shared.download_file, downloads_dir, h], ?_⟩
  simp only [Shared.download_file]
  exact lastSegment_eq_afterLastSlash url

/-- Witness for C10: a concrete archive URL saved with no filename argument
and no localized folder lands in `Downloads` under the name after the last
slash. -/
theorem c10_download_destination_witness :
    (Shared.download_file "https://gh.io/repo/v1.zip".data none false).1
        = "Downloads".data ∧
    (Shared.download_file "https://gh.io/repo/v1.zip".data none false).2
        = "v1.zip".data :=
  ⟨(c10_download_destination "https://gh.io/repo/v1.zip".data false none).2.1 rfl,
   by
    rw [(c10_download_destination "https://gh.io/repo/v1.zip".data false none).2.2]
    decide⟩

/-- JSON values as they occur in the persisted cache file: strings, arrays
and objects.  The cache schema (`{index: {tag, name, assets}}`) contains no
numbers, booleans or nulls, so those JSON forms are outside the domain. -/
inductive J where
  | str (s : List Char)
  | arr (items : List J)
  | obj (members : List (List Char × J))
deriving Repr

/-- The hex digit characters `"%04x"` formatting uses. -/
def hexDig : Nat → Char
  | 0 => '0' | 1 => '1' | 2 => '2' | 3 => '3' | 4 => '4' | 5 => '5' | 6 => '6'
  | 7 => '7' | 8 => '8' | 9 => '9' | 10 => 'a' | 11 => 'b' | 12 => 'c'
  | 13 => 'd' | 14 => 'e' | 15 => 'f' | _ => '0'

/-- One character of `json.dump`'s string escaping (`py_encode_basestring`,
used because `ensure_ascii=False`): quote, backslash and the named control
characters get two-character escapes, the remaining characters below 0x20
get a `\u00XX` escape, everything else — including non-ASCII — is emitted
verbatim. -/
def escChar (c : Char) : List Char :=
  if c = '"' then ['\\', '"']
  else if c = '\\' then ['\\', '\\']
  else if c = Char.ofNat 8 then ['\\', 'b']
  else if c = Char.ofNat 12 then ['\\', 'f']
  else if c = '\n' then ['\\', 'n']
  else if c = '\r' then ['\\', 'r']
  else if c = '\t' then ['\\', 't']
  else if c.toNat < 32 then
    ['\\', 'u', '0', '0', hexDig (c.toNat / 16), hexDig (c.toNat % 16)]
  else [c]

/-- `json.dump` string escaping over a whole string. -/
def escStr : List Char → List Char
  | [] => []
  | c :: rest => escChar c ++ escStr rest

/-- The newline-plus-indentation separator `json.dump(indent=4)` emits
before an element nested at the given level. -/
def nlIndent (lvl : Nat) : List Char := '\n' :: List.replicate (4 * lvl) ' '

mutual
/-- `json.dump(data, f, indent=4, ensure_ascii=False)` rendered to
characters, at a given nesting level (the call site uses level 0). -/
def renderJ : Nat → J → List Char
  | _, .str s => '"' :: (escStr s ++ ['"'])
  | _, .arr [] => ['[', ']']
  | lvl, .arr (x :: xs) =>
    '[' :: (nlIndent (lvl + 1) ++ renderItems (lvl + 1) x xs ++ nlIndent lvl ++ [']'])
  | _, .obj [] => ['{', '}']
  | lvl, .obj (m :: ms) =>
    '{' :: (nlIndent (lvl + 1) ++ renderMembers (lvl + 1) m ms ++ nlIndent lvl ++ ['}'])
termination_by _ v => sizeOf v

/-- Comma-separated array items at one level. -/
def renderItems : Nat → J → List J → List Char
  | lvl, x, [] => renderJ lvl x
  | lvl, x, y :: ys => renderJ lvl x ++ ',' :: (nlIndent lvl ++ renderItems lvl y ys)
termination_by _ x xs => sizeOf x + sizeOf xs

/-- Comma-separated object members at one level; the key separator with
`indent=4` is `": "`. -/
def renderMembers : Nat → List Char × J → List (List Char × J) → List Char
  | lvl, (k, v), [] => '"' :: (escStr k ++ '"' :: ':' :: ' ' :: renderJ lvl v)
  | lvl, (k, v), m :: ms =>
    ('"' :: (escStr k ++ '"' :: ':' :: ' ' :: renderJ lvl v)) ++
      ',' :: (nlIndent lvl ++ renderMembers lvl m ms)
termination_by _ m ms => sizeOf m + sizeOf ms
end

/-- JSON whitespace skipping: `json.decoder` skips space, tab, newline and
carriage return between tokens. -/
def skipWs : List Char → List Char
  | [] => []
  | c :: rest =>
    if c = ' ' ∨ c = '\t' ∨ c = '\n' ∨ c = '\r' then skipWs rest else c :: rest

/-- Hex digit value; `json.loads` accepts both letter cases. -/
def hexVal (c : Char) : Option Nat :=
  if '0' ≤ c ∧ c ≤ '9' then some (c.toNat - 48)
  else if 'a' ≤ c ∧ c ≤ 'f' then some (c.toNat - 87)
  else if 'A' ≤ c ∧ c ≤ 'F' then some (c.toNat - 55)
  else none

/-- The named two-character escapes `json.loads` accepts. -/
def escPair : Char → Option Char
  | '"' => some '"'
  | '\\' => some '\\'
  | '/' => some '/'
  | 'b' => some (Char.ofNat 8)
  | 'f' => some (Char.ofNat 12)
  | 'n' => some '\n'
  | 'r' => some '\r'
  | 't' => some '\t'
  | _ => none

/-- `py_scanstring`: consume the body of a JSON string after its opening
quote, returning the decoded characters and the remainder after the closing
quote.  Raw control characters are rejected (`strict=True` default),
escapes are decoded, and `\uXXXX` is decoded when it denotes a valid scalar
value (CPython's surrogate-pair recombination is irrelevant here: the
encoder under `ensure_ascii=False` only ever emits `\u00XX`). -/
def parseStrBody : List Char → Option (List Char × List Char)
  | [] => none
  | c :: rest =>
    if c = '"' then some ([], rest)
    else if c = '\\' then
      match rest with
      | 'u' :: h1 :: h2 :: h3 :: h4 :: rest2 =>
        match hexVal h1, hexVal h2, hexVal h3, hexVal h4 with
        | some d1, some d2, some d3, some d4 =>
          let code := ((d1 * 16 + d2) * 16 + d3) * 16 + d4
          if code.isValidChar then
            match parseStrBody rest2 with
            | some (s, r) => some (Char.ofNat code :: s, r)
            | none => none
          else none
        | _, _, _, _ => none
      | e :: rest2 =>
        match escPair e with
        | some c2 =>
          match parseStrBody rest2 with
          | some (s, r) => some (c2 :: s, r)
          | none => none
        | none => none
      | [] => none
    else if c.toNat < 32 then none
    else
      match parseStrBody rest with
      | some (s, r) => some (c :: s, r)
      | none => none

mutual
/-- One JSON value, as `json.decoder` scans it: skip whitespace, then
dispatch on the first character.  Only the forms the cache file contains
(strings, arrays, objects) are in the domain; the fuel argument bounds the
nesting depth and only ever runs out on inputs deeper than their own length,
which cannot occur (every nesting level consumes at least one character). -/
def parseVal : Nat → List Char → Option (J × List Char)
  | 0, _ => none
  | fuel + 1, input =>
    match skipWs input with
    | '"' :: rest =>
      match parseStrBody rest with
      | some (s, r) => some (.str s, r)
      | none => none
    | '[' :: rest =>
      if (skipWs rest).head? = some ']' then some (.arr [], (skipWs rest).tail)
      else
        match parseItems fuel rest with
        | some (vs, r2) => some (.arr vs, r2)
        | none => none
    | '{' :: rest =>
      if (skipWs rest).head? = some '}' then some (.obj [], (skipWs rest).tail)
      else
        match parseMembers fuel rest with
        | some (ms, r2) => some (.obj ms, r2)
        | none => none
    | _ => none

/-- The non-empty element loop of `JSONArray`: value, then `,` and repeat,
or `]` and stop. -/
def parseItems : Nat → List Char → Option (List J × List Char)
  | 0, _ => none
  | fuel + 1, input =>
    match parseVal fuel input with
    | some (v, r) =>
      match skipWs r with
      | ',' :: r2 =>
        match parseItems fuel r2 with
        | some (vs, r3) => some (v :: vs, r3)
        | none => none
      | ']' :: r2 => some ([v], r2)
      | _ => none
    | none => none

/-- The non-empty member loop of `JSONObject`: string key, `:`, value, then
`,` and repeat, or `}` and stop. -/
def parseMembers : Nat → List Char → Option (List (List Char × J) × List Char)
  | 0, _ => none
  | fuel + 1, input =>
    match skipWs input with
    | '"' :: kr =>
      match parseStrBody kr with
      | some (k, r1) =>
        match skipWs r1 with
        | ':' :: r2 =>
          match parseVal fuel r2 with
          | some (v, r3) =>
            match skipWs r3 with
            | ',' :: r4 =>
              match parseMembers fuel r4 with
              | some (ms, r5) => some ((k, v) :: ms, r5)
              | none => none
            | '}' :: r4 => some ([(k, v)], r4)
            | _ => none
          | none => none
        | _ => none
      | none => none
    | _ => none
end

/-- `json.dump(data, f, indent=4, ensure_ascii=False)`: the exact character
stream written to `data.json`. -/
def json_dumps (v : J) : List Char := renderJ 0 v

/-- `json.load`: parse one value and require only whitespace to follow; any
other outcome raises `JSONDecodeError`.  The fuel `length + 1` is always
sufficient because every nesting level consumes at least one character. -/
def json_loads (s : List Char) : Option J :=
  match parseVal (s.length + 1) s with
  | some (v, rest) => if skipWs rest = [] then some v else none
  | none => none

/-- `Database.get` at the persisted-text level (database.py): `json.load`
of the file contents, with the `JSONDecodeError` branch returning the empty
object. -/
def Database.get_text (s : List Char) : J := (json_loads s).getD (.obj [])

/-- `Database.write` at the persisted-text level (database.py): replace the
file contents wholesale with the `json.dump` serialization. -/
def Database.write_text (v : J) : List Char := json_dumps v

/-- The JSON object `Database.fetch_releases` persists for one release. -/
def releaseToJ (r : Release) : J :=
  .obj [("tag".data, .str r.tag.data), ("name".data, .str r.name.data),
    ("assets".data, .arr (r.assets.map fun a => .str a.data))]

/-- The JSON object `Database.fetch_releases` persists for a whole release
collection: keyed by the decimal digits of consecutive indices from 0
(`json.dump` stringifies the integer keys). -/
def cacheToJ (releases : List Release) : J :=
  .obj (releases.enum.map fun p => ((toString p.1).data, releaseToJ p.2))

theorem hexVal_hexDig : ∀ n, n < 16 → hexVal (hexDig n) = some n := by decide

/-- `Char.ofNat` inverts `Char.toNat` on the control range the `\u00XX`
escapes cover. -/
theorem charOfNat_toNat (c : Char) (h : c.toNat < 32) : Char.ofNat c.toNat = c := by
  have hv : c.toNat.isValidChar := Or.inl (by omega)
  rw [Char.ofNat, dif_pos hv]
  apply Char.eq_of_val_eq
  simp only [Char.ofNatAux]
  apply UInt32.eq_of_toBitVec_eq
  apply BitVec.eq_of_toNat_eq
  simp [Char.toNat]
  rfl

/-- A run of characters `json.decoder` treats as whitespace. -/
def WsOnly (pre : List Char) : Prop :=
  ∀ c ∈ pre, c = ' ' ∨ c = '\t' ∨ c = '\n' ∨ c = '\r'

theorem wsOnly_nil : WsOnly [] := fun c hc => absurd hc (List.not_mem_nil c)

theorem wsOnly_nlIndent (lvl : Nat) : WsOnly (nlIndent lvl) := by
  intro c hc
  rcases List.mem_cons.mp hc with rfl | hc2
  · simp
  · left
    exact List.eq_of_mem_replicate hc2

theorem wsOnly_space : WsOnly [' '] := by
  intro c hc
  rcases List.mem_cons.mp hc with rfl | hc2
  · simp
  · exact absurd hc2 (List.not_mem_nil c)

theorem skipWs_drop_ws_front (pre l : List Char) (h : WsOnly pre) :
    skipWs (pre ++ l) = skipWs l := by
  induction pre with
  | nil => rfl
  | cons a t ih =>
    have ha := h a (by simp)
    simp only [List.cons_append, skipWs, if_pos ha]
    exact ih fun c hc => h c (by simp [hc])

theorem skipWs_cons_not_ws (c : Char) (l : List Char)
    (h : ¬(c = ' ' ∨ c = '\t' ∨ c = '\n' ∨ c = '\r')) : skipWs (c :: l) = c :: l := by
  simp only [skipWs, if_neg h]

/-- The first character `json.dump` emits for each value form. -/
def headCh : J → Char
  | .str _ => '"'
  | .arr _ => '['
  | .obj _ => '{'

theorem renderJ_head (lvl : Nat) (v : J) : ∃ t, renderJ lvl v = headCh v :: t := by
  cases v with
  | str s => exact ⟨escStr s ++ ['"'], by simp [renderJ, headCh]⟩
  | arr items => cases items with
    | nil => exact ⟨[']'], by simp [renderJ, headCh]⟩
    | cons x xs =>
      exact ⟨nlIndent (lvl + 1) ++ renderItems (lvl + 1) x xs ++ nlIndent lvl ++ [']'],
        by simp [renderJ, headCh]⟩
  | obj members => cases members with
    | nil => exact ⟨['}'], by simp [renderJ, headCh]⟩
    | cons m ms =>
      exact ⟨nlIndent (lvl + 1) ++ renderMembers (lvl + 1) m ms ++ nlIndent lvl ++ ['}'],
        by simp [renderJ, headCh]⟩

theorem renderItems_head (lvl : Nat) (x : J) (xs : List J) :
    ∃ t, renderItems lvl x xs = headCh x :: t := by
  obtain ⟨t, ht⟩ := renderJ_head lvl x
  cases xs with
  | nil => exact ⟨t, by simp [renderItems, ht]⟩
  | cons y ys =>
    exact ⟨t ++ ',' :: (nlIndent lvl ++ renderItems lvl y ys),
      by simp [renderItems, ht]⟩

theorem headCh_not_ws (v : J) :
    ¬(headCh v = ' ' ∨ headCh v = '\t' ∨ headCh v = '\n' ∨ headCh v = '\r') := by
  cases v <;> simp [headCh]

theorem headCh_ne_rbracket (v : J) : ¬(headCh v = ']') := by
  cases v <;> simp [headCh]

theorem headCh_ne_rbrace (v : J) : ¬(headCh v = '}') := by
  cases v <;> simp [headCh]

/-- Scanning back an escaped string body: the decoder inverts the encoder
character by character. -/
theorem parseStrBody_escStr (s rest : List Char) :
    parseStrBody (escStr s ++ '"' :: rest) = some (s, rest) := by
  induction s with
  | nil =>
    show parseStrBody ([] ++ '"' :: rest) = some ([], rest)
    unfold parseStrBody
    simp
  | cons c cs ih =>
    show parseStrBody ((escChar c ++ escStr cs) ++ '"' :: rest) = some (c :: cs, rest)
    by_cases h1 : c = '"'
    · subst h1
      rw [show escChar '"' = ['\\', '"'] from by decide]
      simp only [List.cons_append, List.nil_append]
      unfold parseStrBody
      simp [escPair, ih]
    · by_cases h2 : c = '\\'
      · subst h2
        rw [show escChar '\\' = ['\\', '\\'] from by decide]
        simp only [List.cons_append, List.nil_append]
        unfold parseStrBody
        simp [escPair, ih]
      · by_cases h3 : c = Char.ofNat 8
        · subst h3
          rw [show escChar (Char.ofNat 8) = ['\\', 'b'] from by decide]
          simp only [List.cons_append, List.nil_append]
          unfold parseStrBody
          simp [escPair, ih]
        · by_cases h4 : c = Char.ofNat 12
          · subst h4
            rw [show escChar (Char.ofNat 12) = ['\\', 'f'] from by decide]
            simp only [List.cons_append, List.nil_append]
            unfold parseStrBody
            simp [escPair, ih]
          · by_cases h5 : c = '\n'
            · subst h5
              rw [show escChar '\n' = ['\\', 'n'] from by decide]
              simp only [List.cons_append, List.nil_append]
              unfold parseStrBody
              simp [escPair, ih]
            · by_cases h6 : c = '\r'
              · subst h6
                rw [show escChar '\r' = ['\\', 'r'] from by decide]
                simp only [List.cons_append, List.nil_append]
                unfold parseStrBody
                simp [escPair, ih]
              · by_cases h7 : c = '\t'
                · subst h7
                  rw [show escChar '\t' = ['\\', 't'] from by decide]
                  simp only [List.cons_append, List.nil_append]
                  unfold parseStrBody
                  simp [escPair, ih]
                · by_cases h8 : c.toNat < 32
                  · have hd1 : hexVal (hexDig (c.toNat / 16)) = some (c.toNat / 16) :=
                      hexVal_hexDig _ (by omega)
                    have hd2 : hexVal (hexDig (c.toNat % 16)) = some (c.toNat % 16) :=
                      hexVal_hexDig _ (by omega)
                    have hv0 : hexVal '0' = some 0 := by decide
                    have hcode :
                        ((0 * 16 + 0) * 16 + c.toNat / 16) * 16 + c.toNat % 16
                          = c.toNat := by omega
                    have hvalid :
                        (((0 * 16 + 0) * 16 + c.toNat / 16) * 16 + c.toNat % 16).isValidChar := by
                      rw [hcode]
                      exact Or.inl (by omega)
                    simp only [escChar, if_neg h1, if_neg h2, if_neg h3, if_neg h4,
                      if_neg h5, if_neg h6, if_neg h7, if_pos h8, List.cons_append,
                      List.nil_append]
                    unfold parseStrBody
                    simp only [if_neg (show ¬(('\\' : Char) = '"') from by decide),
                      if_pos rfl, hv0, hd1, hd2]
                    simp only [if_pos hvalid, ih]
                    rw [hcode, charOfNat_toNat c h8]
                    simp
                  · simp only [escChar, if_neg h1, if_neg h2, if_neg h3, if_neg h4,
                      if_neg h5, if_neg h6, if_neg h7, if_neg h8, List.cons_append,
                      List.nil_append]
                    unfold parseStrBody
                    rw [if_neg h1, if_neg h2, if_neg h8, ih]

mutual
/-- Parser fuel sufficient for the rendering of a value. -/
def fuelJ : J → Nat
  | .str _ => 1
  | .arr [] => 1
  | .arr (x :: xs) => 1 + fuelItems x xs
  | .obj [] => 1
  | .obj (m :: ms) => 1 + fuelMembers m ms
termination_by v => sizeOf v

/-- Parser fuel sufficient for a non-empty rendered item list. -/
def fuelItems : J → List J → Nat
  | x, [] => 1 + fuelJ x
  | x, y :: ys => 1 + fuelJ x + fuelItems y ys
termination_by x xs => sizeOf x + sizeOf xs

/-- Parser fuel sufficient for a non-empty rendered member list. -/
def fuelMembers : List Char × J → List (List Char × J) → Nat
  | (_, v), [] => 1 + fuelJ v
  | (_, v), m :: ms => 1 + fuelJ v + fuelMembers m ms
termination_by m ms => sizeOf m + sizeOf ms
end

theorem one_le_fuelJ (v : J) : 1 ≤ fuelJ v := by
  cases v with
  | str s => simp [fuelJ]
  | arr items => cases items <;> simp [fuelJ]
  | obj members =>
    cases members with
    | nil => simp [fuelJ]
    | cons m ms => simp [fuelJ]

theorem one_le_fuelItems (x : J) (xs : List J) : 1 ≤ fuelItems x xs := by
  cases xs with
  | nil => simp [fuelItems]
  | cons y ys => simp only [fuelItems]; omega

theorem one_le_fuelMembers (m : List Char × J) (ms : List (List Char × J)) :
    1 ≤ fuelMembers m ms := by
  obtain ⟨k, v⟩ := m
  cases ms with
  | nil => simp [fuelMembers]
  | cons m2 ms2 => simp only [fuelMembers]; omega

theorem parseVal_skip_quote (n : Nat) (input l : List Char)
    (h : skipWs input = '"' :: l) :
    parseVal (n + 1) input =
      match parseStrBody l with
      | some (s, r) => some (J.str s, r)
      | none => none := by
  unfold parseVal
  rw [h]
  rfl

theorem parseVal_skip_lbracket (n : Nat) (input l : List Char)
    (h : skipWs input = '[' :: l) :
    parseVal (n + 1) input =
      if (skipWs l).head? = some ']' then some (J.arr [], (skipWs l).tail)
      else
        match parseItems n l with
        | some (vs, r2) => some (J.arr vs, r2)
        | none => none := by
  unfold parseVal
  rw [h]
  rfl

theorem parseVal_skip_lbrace (n : Nat) (input l : List Char)
    (h : skipWs input = '{' :: l) :
    parseVal (n + 1) input =
      if (skipWs l).head? = some '}' then some (J.obj [], (skipWs l).tail)
      else
        match parseMembers n l with
        | some (ms, r2) => some (J.obj ms, r2)
        | none => none := by
  unfold parseVal
  rw [h]
  rfl

theorem parseItems_succ (n : Nat) (input : List Char) :
    parseItems (n + 1) input =
      match parseVal n input with
      | some (v, r) =>
        match skipWs r with
        | ',' :: r2 =>
          match parseItems n r2 with
          | some (vs, r3) => some (v :: vs, r3)
          | none => none
        | ']' :: r2 => some ([v], r2)
        | _ => none
      | none => none := by
  conv_lhs => unfold parseItems

theorem parseMembers_skip_quote (n : Nat) (input l : List Char)
    (h : skipWs input = '"' :: l) :
    parseMembers (n + 1) input =
      match parseStrBody l with
      | some (k, r1) =>
        match skipWs r1 with
        | ':' :: r2 =>
          match parseVal n r2 with
          | some (v, r3) =>
            match skipWs r3 with
            | ',' :: r4 =>
              match parseMembers n r4 with
              | some (ms, r5) => some ((k, v) :: ms, r5)
              | none => none
            | '}' :: r4 => some ([(k, v)], r4)
            | _ => none
          | none => none
        | _ => none
      | none => none := by
  conv_lhs => unfold parseMembers
  rw [h]
  simp

theorem renderMembers_head (lvl : Nat) (m : List Char × J) (ms : List (List Char × J)) :
    ∃ t, renderMembers lvl m ms = '"' :: t := by
  obtain ⟨k, v⟩ := m
  cases ms with
  | nil => exact ⟨escStr k ++ '"' :: ':' :: ' ' :: renderJ lvl v, by simp [renderMembers]⟩
  | cons m2 ms2 =>
    exact ⟨(escStr k ++ '"' :: ':' :: ' ' :: renderJ lvl v) ++
      ',' :: (nlIndent lvl ++ renderMembers lvl m2 ms2), by simp [renderMembers]⟩

theorem parseItems_succ_comma (n : Nat) (input r r2 r3 : List Char) (v : J)
    (vs : List J) (h : parseVal n input = some (v, r)) (hr : skipWs r = ',' :: r2)
    (hrest : parseItems n r2 = some (vs, r3)) :
    parseItems (n + 1) input = some (v :: vs, r3) := by
  rw [parseItems_succ, h]
  simp [hr, hrest]

theorem parseItems_succ_rbracket (n : Nat) (input r r2 : List Char) (v : J)
    (h : parseVal n input = some (v, r)) (hr : skipWs r = ']' :: r2) :
    parseItems (n + 1) input = some ([v], r2) := by
  rw [parseItems_succ, h]
  simp [hr]

theorem parseMembers_succ_comma (n : Nat) (input l r1 r2 r3 r4 r5 k : List Char)
    (v : J) (ms : List (List Char × J))
    (hskip : skipWs input = '"' :: l)
    (hkey : parseStrBody l = some (k, r1))
    (hcolon : skipWs r1 = ':' :: r2)
    (hval : parseVal n r2 = some (v, r3))
    (hcomma : skipWs r3 = ',' :: r4)
    (hrest : parseMembers n r4 = some (ms, r5)) :
    parseMembers (n + 1) input = some ((k, v) :: ms, r5) := by
  rw [parseMembers_skip_quote n _ _ hskip, hkey]
  simp [hcolon, hval, hcomma, hrest]

theorem parseMembers_succ_rbrace (n : Nat) (input l r1 r2 r3 r4 k : List Char)
    (v : J)
    (hskip : skipWs input = '"' :: l)
    (hkey : parseStrBody l = some (k, r1))
    (hcolon : skipWs r1 = ':' :: r2)
    (hval : parseVal n r2 = some (v, r3))
    (hbrace : skipWs r3 = '}' :: r4) :
    parseMembers (n + 1) input = some ([(k, v)], r4) := by
  rw [parseMembers_skip_quote n _ _ hskip, hkey]
  simp [hcolon, hval, hbrace]

/-- The scanner inverts the renderer: with enough fuel, any rendered value
preceded by whitespace parses back to itself and leaves the remainder; the
item and member loops likewise invert the rendered separators up to the
closing `]` or `}`. -/
theorem parse_render (n : Nat) :
    (∀ v lvl rest pre, WsOnly pre → fuelJ v ≤ n →
      parseVal n (pre ++ (renderJ lvl v ++ rest)) = some (v, rest)) ∧
    (∀ x xs lvl lvl2 rest pre, WsOnly pre → fuelItems x xs ≤ n →
      parseItems n (pre ++ (renderItems lvl x xs ++ (nlIndent lvl2 ++ ']' :: rest)))
        = some (x :: xs, rest)) ∧
    (∀ m ms lvl lvl2 rest pre, WsOnly pre → fuelMembers m ms ≤ n →
      parseMembers n (pre ++ (renderMembers lvl m ms ++ (nlIndent lvl2 ++ '}' :: rest)))
        = some (m :: ms, rest)) := by
  induction n with
  | zero =>
    refine ⟨fun v _ _ _ _ hf => absurd hf (by have := one_le_fuelJ v; omega),
      fun x xs _ _ _ _ _ hf => absurd hf (by have := one_le_fuelItems x xs; omega),
      fun m ms _ _ _ _ _ hf => absurd hf (by have := one_le_fuelMembers m ms; omega)⟩
  | succ n ih =>
    refine ⟨?_, ?_, ?_⟩
    · intro v lvl rest pre hpre hfuel
      cases v with
      | str s =>
        have hskip : skipWs (pre ++ (renderJ lvl (J.str s) ++ rest))
            = '"' :: (escStr s ++ '"' :: rest) := by
          rw [skipWs_drop_ws_front pre _ hpre,
            show renderJ lvl (J.str s) = '"' :: (escStr s ++ ['"']) from by simp [renderJ],
            List.cons_append, skipWs_cons_not_ws _ _ (by decide)]
          simp [List.append_assoc]
        rw [parseVal_skip_quote n _ _ hskip, parseStrBody_escStr]
      | arr items =>
        cases items with
        | nil =>
          have hskip : skipWs (pre ++ (renderJ lvl (J.arr []) ++ rest))
              = '[' :: ']' :: rest := by
            rw [skipWs_drop_ws_front pre _ hpre,
              show renderJ lvl (J.arr []) = ['[', ']'] from by simp [renderJ],
              show (['[', ']'] : List Char) ++ rest = '[' :: ']' :: rest from by simp,
              skipWs_cons_not_ws _ _ (by decide)]
          rw [parseVal_skip_lbracket n _ _ hskip,
            skipWs_cons_not_ws _ _ (by decide)]
          simp
        | cons x xs =>
          have hskip : skipWs (pre ++ (renderJ lvl (J.arr (x :: xs)) ++ rest))
              = '[' :: (nlIndent (lvl + 1) ++
                  (renderItems (lvl + 1) x xs ++ (nlIndent lvl ++ ']' :: rest))) := by
            rw [skipWs_drop_ws_front pre _ hpre,
              show renderJ lvl (J.arr (x :: xs))
                  = '[' :: (nlIndent (lvl + 1) ++ renderItems (lvl + 1) x xs ++
                      nlIndent lvl ++ [']'])
                from by simp [renderJ],
              List.cons_append, skipWs_cons_not_ws _ _ (by decide)]
            simp [List.append_assoc]
          rw [parseVal_skip_lbracket n _ _ hskip]
          obtain ⟨t, ht⟩ := renderItems_head (lvl + 1) x xs
          have hskip2 : skipWs (nlIndent (lvl + 1) ++
                (renderItems (lvl + 1) x xs ++ (nlIndent lvl ++ ']' :: rest)))
              = headCh x :: (t ++ (nlIndent lvl ++ ']' :: rest)) := by
            rw [skipWs_drop_ws_front _ _ (wsOnly_nlIndent _), ht, List.cons_append,
              skipWs_cons_not_ws _ _ (headCh_not_ws x)]
          rw [hskip2, if_neg (by simp [headCh_ne_rbracket x]),
            ih.2.1 x xs (lvl + 1) lvl rest (nlIndent (lvl + 1)) (wsOnly_nlIndent _)
              (by simp only [fuelJ] at hfuel; omega)]
      | obj members =>
        cases members with
        | nil =>
          have hskip : skipWs (pre ++ (renderJ lvl (J.obj []) ++ rest))
              = '{' :: '}' :: rest := by
            rw [skipWs_drop_ws_front pre _ hpre,
              show renderJ lvl (J.obj []) = ['{', '}'] from by simp [renderJ],
              show (['{', '}'] : List Char) ++ rest = '{' :: '}' :: rest from by simp,
              skipWs_cons_not_ws _ _ (by decide)]
          rw [parseVal_skip_lbrace n _ _ hskip,
            skipWs_cons_not_ws _ _ (by decide)]
          simp
        | cons m ms =>
          have hskip : skipWs (pre ++ (renderJ lvl (J.obj (m :: ms)) ++ rest))
              = '{' :: (nlIndent (lvl + 1) ++
                  (renderMembers (lvl + 1) m ms ++ (nlIndent lvl ++ '}' :: rest))) := by
            rw [skipWs_drop_ws_front pre _ hpre,
              show renderJ lvl (J.obj (m :: ms))
                  = '{' :: (nlIndent (lvl + 1) ++ renderMembers (lvl + 1) m ms ++
                      nlIndent lvl ++ ['}'])
                from by simp [renderJ],
              List.cons_append, skipWs_cons_not_ws _ _ (by decide)]
            simp [List.append_assoc]
          rw [parseVal_skip_lbrace n _ _ hskip]
          obtain ⟨t, ht⟩ := renderMembers_head (lvl + 1) m ms
          have hskip2 : skipWs (nlIndent (lvl + 1) ++
                (renderMembers (lvl + 1) m ms ++ (nlIndent lvl ++ '}' :: rest)))
              = '"' :: (t ++ (nlIndent lvl ++ '}' :: rest)) := by
            rw [skipWs_drop_ws_front _ _ (wsOnly_nlIndent _), ht, List.cons_append,
              skipWs_cons_not_ws _ _ (by decide)]
          rw [hskip2, if_neg (by simp),
            ih.2.2 m ms (lvl + 1) lvl rest (nlIndent (lvl + 1)) (wsOnly_nlIndent _)
              (by simp only [fuelJ] at hfuel; omega)]
    · intro x xs lvl lvl2 rest pre hpre hfuel
      cases xs with
      | nil =>
        rw [show renderItems lvl x [] = renderJ lvl x from by simp [renderItems]]
        exact parseItems_succ_rbracket n _ _ rest x
          (ih.1 x lvl (nlIndent lvl2 ++ ']' :: rest) pre hpre
            (by simp only [fuelItems] at hfuel; omega))
          (by rw [skipWs_drop_ws_front _ _ (wsOnly_nlIndent _),
            skipWs_cons_not_ws _ _ (by decide)])
      | cons y ys =>
        have hshape : pre ++ (renderItems lvl x (y :: ys) ++ (nlIndent lvl2 ++ ']' :: rest))
            = pre ++ (renderJ lvl x ++
                (',' :: (nlIndent lvl ++
                  (renderItems lvl y ys ++ (nlIndent lvl2 ++ ']' :: rest))))) := by
          rw [show renderItems lvl x (y :: ys)
              = renderJ lvl x ++ ',' :: (nlIndent lvl ++ renderItems lvl y ys)
            from by simp [renderItems]]
          simp [List.append_assoc]
        have hfx : fuelJ x ≤ n := by
          have := one_le_fuelItems y ys
          simp only [fuelItems] at hfuel
          omega
        have hfyys : fuelItems y ys ≤ n := by
          have := one_le_fuelJ x
          simp only [fuelItems] at hfuel
          omega
        rw [hshape]
        exact parseItems_succ_comma n _ _ _ rest x (y :: ys)
          (ih.1 x lvl
            (',' :: (nlIndent lvl ++ (renderItems lvl y ys ++ (nlIndent lvl2 ++ ']' :: rest))))
            pre hpre hfx)
          (skipWs_cons_not_ws _ _ (by decide))
          (ih.2.1 y ys lvl lvl2 rest (nlIndent lvl) (wsOnly_nlIndent _) hfyys)
    · intro m ms lvl lvl2 rest pre hpre hfuel
      obtain ⟨k, v⟩ := m
      cases ms with
      | nil =>
        have hskip : skipWs (pre ++
              (renderMembers lvl (k, v) [] ++ (nlIndent lvl2 ++ '}' :: rest)))
            = '"' :: (escStr k ++
                '"' :: ':' :: ' ' :: (renderJ lvl v ++ (nlIndent lvl2 ++ '}' :: rest))) := by
          rw [skipWs_drop_ws_front pre _ hpre,
            show renderMembers lvl (k, v) []
                = '"' :: (escStr k ++ '"' :: ':' :: ' ' :: renderJ lvl v)
              from by simp [renderMembers],
            List.cons_append, skipWs_cons_not_ws _ _ (by decide)]
          simp [List.append_assoc]
        have hval := ih.1 v lvl (nlIndent lvl2 ++ '}' :: rest) [' '] wsOnly_space
          (by simp only [fuelMembers] at hfuel; omega)
        simp only [List.singleton_append] at hval
        exact parseMembers_succ_rbrace n _ _ _ _ _ rest k v hskip
          (parseStrBody_escStr k _)
          (skipWs_cons_not_ws _ _ (by decide))
          hval
          (by rw [skipWs_drop_ws_front _ _ (wsOnly_nlIndent _),
            skipWs_cons_not_ws _ _ (by decide)])
      | cons m2 ms2 =>
        have hskip : skipWs (pre ++
              (renderMembers lvl (k, v) (m2 :: ms2) ++ (nlIndent lvl2 ++ '}' :: rest)))
            = '"' :: (escStr k ++
                '"' :: ':' :: ' ' :: (renderJ lvl v ++
                  (',' :: (nlIndent lvl ++
                    (renderMembers lvl m2 ms2 ++ (nlIndent lvl2 ++ '}' :: rest)))))) := by
          rw [skipWs_drop_ws_front pre _ hpre,
            show renderMembers lvl (k, v) (m2 :: ms2)
                = ('"' :: (escStr k ++ '"' :: ':' :: ' ' :: renderJ lvl v)) ++
                    ',' :: (nlIndent lvl ++ renderMembers lvl m2 ms2)
              from by simp [renderMembers],
            List.cons_append, List.cons_append, skipWs_cons_not_ws _ _ (by decide)]
          simp [List.append_assoc]
        have hfv : fuelJ v ≤ n := by
          have := one_le_fuelMembers m2 ms2
          simp only [fuelMembers] at hfuel
          omega
        have hfms : fuelMembers m2 ms2 ≤ n := by
          have := one_le_fuelJ v
          simp only [fuelMembers] at hfuel
          omega
        have hval := ih.1 v lvl
          (',' :: (nlIndent lvl ++ (renderMembers lvl m2 ms2 ++ (nlIndent lvl2 ++ '}' :: rest))))
          [' '] wsOnly_space hfv
        simp only [List.singleton_append] at hval
        exact parseMembers_succ_comma n _ _ _ _ _ _ rest k v (m2 :: ms2) hskip
          (parseStrBody_escStr k _)
          (skipWs_cons_not_ws _ _ (by decide))
          hval
          (skipWs_cons_not_ws _ _ (by decide))
          (ih.2.2 m2 ms2 lvl lvl2 rest (nlIndent lvl) (wsOnly_nlIndent _) hfms)

/-- The fuel a rendered value needs never exceeds its rendered length, so
the `length + 1` fuel of `json_loads` always suffices. -/
theorem fuel_le_length (n : Nat) :
    (∀ v lvl, fuelJ v ≤ n → fuelJ v ≤ (renderJ lvl v).length) ∧
    (∀ x xs lvl, fuelItems x xs ≤ n →
      fuelItems x xs ≤ (renderItems lvl x xs).length + 1) ∧
    (∀ m ms lvl, fuelMembers m ms ≤ n →
      fuelMembers m ms ≤ (renderMembers lvl m ms).length + 1) := by
  induction n with
  | zero =>
    refine ⟨fun v _ hf => absurd hf (by have := one_le_fuelJ v; omega),
      fun x xs _ hf => absurd hf (by have := one_le_fuelItems x xs; omega),
      fun m ms _ hf => absurd hf (by have := one_le_fuelMembers m ms; omega)⟩
  | succ n ih =>
    refine ⟨?_, ?_, ?_⟩
    · intro v lvl hfuel
      cases v with
      | str s => simp [fuelJ, renderJ]
      | arr items =>
        cases items with
        | nil => simp [fuelJ, renderJ]
        | cons x xs =>
          have hi := ih.2.1 x xs (lvl + 1) (by simp only [fuelJ] at hfuel; omega)
          simp only [fuelJ, renderJ, List.length_cons, List.length_append, nlIndent,
            List.length_replicate] at hi ⊢
          omega
      | obj members =>
        cases members with
        | nil => simp [fuelJ, renderJ]
        | cons m ms =>
          have hi := ih.2.2 m ms (lvl + 1) (by simp only [fuelJ] at hfuel; omega)
          simp only [fuelJ, renderJ, List.length_cons, List.length_append, nlIndent,
            List.length_replicate] at hi ⊢
          omega
    · intro x xs lvl hfuel
      cases xs with
      | nil =>
        have hv := ih.1 x lvl (by simp only [fuelItems] at hfuel; omega)
        simp only [fuelItems, renderItems]
        omega
      | cons y ys =>
        have hv := ih.1 x lvl (by
          have := one_le_fuelItems y ys
          simp only [fuelItems] at hfuel
          omega)
        have hi := ih.2.1 y ys lvl (by
          have := one_le_fuelJ x
          simp only [fuelItems] at hfuel
          omega)
        simp only [fuelItems, renderItems, List.length_cons, List.length_append,
          nlIndent, List.length_replicate] at hi ⊢
        omega
    · intro m ms lvl hfuel
      obtain ⟨k, v⟩ := m
      cases ms with
      | nil =>
        have hv := ih.1 v lvl (by simp only [fuelMembers] at hfuel; omega)
        simp only [fuelMembers, renderMembers, List.length_cons, List.length_append]
        omega
      | cons m2 ms2 =>
        have hv := ih.1 v lvl (by
          have := one_le_fuelMembers m2 ms2
          simp only [fuelMembers] at hfuel
          omega)
        have hi := ih.2.2 m2 ms2 lvl (by
          have := one_le_fuelJ v
          simp only [fuelMembers] at hfuel
          omega)
        simp only [fuelMembers, renderMembers, List.length_cons, List.length_append,
          nlIndent, List.length_replicate] at hi ⊢
        omega

/-- `json.load` inverts `json.dump(indent=4, ensure_ascii=False)` exactly. -/
theorem json_loads_dumps (v : J) : json_loads (json_dumps v) = some v := by
  have hlen : fuelJ v ≤ (renderJ 0 v).length :=
    (fuel_le_length (fuelJ v)).1 v 0 le_rfl
  have hp := (parse_render ((renderJ 0 v).length + 1)).1 v 0 [] [] wsOnly_nil (by omega)
  simp only [List.nil_append, List.append_nil] at hp
  unfold json_loads json_dumps
  rw [hp]
  simp [skipWs]

/-- C8: for every cache written by a successful write (the `json.dump` of a
release collection as `fetch_releases` builds it), reading the persisted
text back yields exactly the written value, and writing that read-back
value again reproduces the stored text byte for byte: `write(read())` is a
no-op on the persisted cache. -/
theorem c8_write_read_roundtrip_stable (releases : List Release) :
    Database.get_text (Database.write_text (cacheToJ releases)) = cacheToJ releases ∧
    Database.write_text (Database.get_text (Database.write_text (cacheToJ releases)))
      = Database.write_text (cacheToJ releases) := by
  have h := json_loads_dumps (cacheToJ releases)
  constructor
  · simp [Database.get_text, Database.write_text, h]
  · simp [Database.get_text, Database.write_text, h]

end Rbxmanager
